import Mathlib

/-!
Verification of the grand nonequilibrium GCMC water sampler
(`grand.samplers.NonequilibriumGCMCSphereSampler` and the ghost-water
utilities), as exercised by `examples/bpti-ncmc/bpti-ncmc.py`.

The sampler engine itself (the `grand` package) ships outside the example
tree, so the data model and operations below are modelled from the design
specification: molecule records with an activity flag and a coupling
parameter lambda, a spherical sampling region, a switching schedule of
coupling values, a nonequilibrium move driver with snapshot/rollback, a
Metropolis acceptance engine, and attempt/accept counters.  External
collaborators (energy evaluation, the dynamics engine, random placement and
the uniform acceptance draw) enter as explicit parameters of a move context.
-/

namespace Grand

/-- Modelled from the spec: a 3-vector of coordinates (positions and
velocities of the simulated system), with rational components so that state
comparison is exact ("bitwise") and executable. -/
structure Vec3 where
  x : ℚ
  y : ℚ
  z : ℚ
deriving DecidableEq, Repr

/-- Modelled from the spec: the molecule record of the Ghost Registry
(missing `grand.samplers` internals): identifier, ordered constituent
particle indices, activity state, and current coupling parameter lambda. -/
structure Molecule where
  mid : Nat
  particles : List Nat
  active : Bool
  lam : ℚ
deriving DecidableEq, Repr

/-- Modelled from the spec: the full mutable state of the simulated system —
positions, velocities, the molecule records (activity states and coupling
parameters), and any extended-system/integrator internal variable. -/
structure SysState where
  positions : List Vec3
  velocities : List Vec3
  molecules : List Molecule
  extended : ℚ
deriving DecidableEq, Repr

/-- Modelled from the spec: the sampler object (missing
`grand.samplers.NonequilibriumGCMCSphereSampler`): the system state plus the
attempted-move counter `n_moves` and the accepted-move counter
`n_accepted`. -/
structure Sampler where
  sys : SysState
  n_moves : Nat
  n_accepted : Nat
deriving DecidableEq, Repr

/-- Number of currently active molecules. -/
def activeCount (s : SysState) : Nat :=
  (s.molecules.filter (fun m => m.active)).length

/-- Modelled from the spec: the sampler's current active-molecule count `N`. -/
def Sampler.N (sp : Sampler) : Nat := activeCount sp.sys

/-- Identifiers of all molecule records, in registry order. -/
def molIds (s : SysState) : List Nat := s.molecules.map (fun m => m.mid)

/-- Identifier and constituent-particle structure of every registry entry
(the part of a record that never changes during a run). -/
def molSkeleton (s : SysState) : List (Nat × List Nat) :=
  s.molecules.map (fun m => (m.mid, m.particles))

/-- Update of one record's coupling parameter: the record with identifier
`id` gets lambda `l`, every other record is returned untouched. -/
def adjustLam (id : Nat) (l : ℚ) (m : Molecule) : Molecule :=
  if m.mid = id then { m with lam := l } else m

/-- Update of one record's activity flag: the record with identifier `id`
gets activity `b`, every other record is returned untouched. -/
def adjustActive (id : Nat) (b : Bool) (m : Molecule) : Molecule :=
  if m.mid = id then { m with active := b } else m

/-- Modelled from the spec: set the coupling parameter of the molecule with
identifier `id` to `l`, leaving every other record untouched. -/
def setLam (id : Nat) (l : ℚ) (s : SysState) : SysState :=
  { s with molecules := s.molecules.map (adjustLam id l) }

/-- Modelled from the spec: set the activity flag of the molecule with
identifier `id`, leaving every other record untouched. -/
def markActive (id : Nat) (b : Bool) (s : SysState) : SysState :=
  { s with molecules := s.molecules.map (adjustActive id b) }

/-- Write position `p` into every slot of `idxs` (the constituent particles
of a molecule being placed); the particle count never changes. -/
def placeParticles (ps : List Vec3) (idxs : List Nat) (p : Vec3) : List Vec3 :=
  idxs.foldl (fun acc i => acc.set i p) ps

/-- Particles of the molecule with identifier `id` (empty if absent). -/
def particlesOf (s : SysState) (id : Nat) : List Nat :=
  ((s.molecules.find? (fun m => m.mid = id)).map (fun m => m.particles)).getD []

/-- Modelled from the spec: move the candidate molecule's particles to the
drawn placement position (the geometric half of `activate`), without yet
touching activity state or lambda. -/
def placeMolecule (s : SysState) (id : Nat) (p : Vec3) : SysState :=
  { s with positions := placeParticles s.positions (particlesOf s id) p }

/-- Modelled from the spec: `activate(id)` of the Ghost Registry (missing
`grand.samplers` internals): mark the ghost molecule active with lambda 1 and
assign it the drawn position `p`; only the targeted record changes and the
particle count is untouched. -/
def activate (s : SysState) (id : Nat) (p : Vec3) : SysState :=
  { s with
    molecules :=
      s.molecules.map (fun m =>
        if m.mid = id then { m with active := true, lam := 1 } else m),
    positions := placeParticles s.positions (particlesOf s id) p }

/-- Modelled from the spec: `deactivate(id)` of the Ghost Registry: mark the
molecule ghost with lambda 0, leaving its particles in the topology. -/
def deactivate (s : SysState) (id : Nat) : SysState :=
  { s with molecules :=
      s.molecules.map (fun m =>
        if m.mid = id then { m with active := false, lam := 0 } else m) }

/-- Squared Euclidean distance. -/
def dist2 (a b : Vec3) : ℚ :=
  (a.x - b.x) * (a.x - b.x) + (a.y - b.y) * (a.y - b.y) +
    (a.z - b.z) * (a.z - b.z)

/-- Modelled from the spec: the Region Tracker membership test — Euclidean
distance from the center at most the radius. -/
def contains (center : Vec3) (radius : ℚ) (p : Vec3) : Bool :=
  decide (dist2 center p ≤ radius * radius)

/-- Position of a molecule: the position of its first constituent particle. -/
def molPos (s : SysState) (m : Molecule) : Option Vec3 :=
  m.particles.head? >>= fun i => s.positions[i]?

/-- Modelled from the spec: whether a molecule currently lies inside the
sampling sphere. -/
def inRegion (center : Vec3) (radius : ℚ) (s : SysState) (m : Molecule) : Bool :=
  (molPos s m).elim false (contains center radius)

/-- Modelled from the spec: `candidatesForDeletion(region)` — active
molecules currently satisfying the region membership test. -/
def candidatesForDeletion (center : Vec3) (radius : ℚ) (s : SysState) :
    List Molecule :=
  s.molecules.filter (fun m => m.active && inRegion center radius s m)

/-- Modelled from the spec: `candidatesForInsertion()` — molecules currently
in ghost state. -/
def candidatesForInsertion (s : SysState) : List Molecule :=
  s.molecules.filter (fun m => !m.active)

/-- Modelled from the spec: `deleteWatersInGCMCSphere` (missing
`grand.samplers` internals): deactivate every active molecule currently
inside the sampling sphere, touching nothing else. -/
def deleteWatersInGCMCSphere (center : Vec3) (radius : ℚ) (s : SysState) :
    SysState :=
  { s with molecules :=
      s.molecules.map (fun m =>
        if m.active && inRegion center radius s m then
          { m with active := false, lam := 0 }
        else m) }

/-- Modelled from the spec: the Switching Schedule for insertion — across
`K` perturbation stages, the K+1 coupling values `i / K` ramping from 0
to 1 (the linear shape; deterministic in `K`). -/
def insertionSchedule (K : Nat) : List ℚ :=
  (List.range (K + 1)).map (fun i : Nat => (i : ℚ) / (K : ℚ))

/-- Modelled from the spec: the Switching Schedule for deletion — the
insertion ramp reversed, from 1 down to 0. -/
def deletionSchedule (K : Nat) : List ℚ :=
  (insertionSchedule K).reverse

/-- Kind of a GCMC move. -/
inductive MoveKind where
  | insertion
  | deletion
deriving DecidableEq, Repr

/-- Whether a move kind is an insertion (the final activity flag the
candidate receives on commit). -/
def MoveKind.isInsertion : MoveKind → Bool
  | insertion => true
  | deletion => false

/-- Modelled from the spec: everything a single move attempt consumes from
outside the Move Driver (missing `grand.samplers` internals): the move kind
and selected candidate chosen by policy, the stage count `K`, the placement
draw for insertion (`none` when the bounded placement attempts are
exhausted), the external energy evaluation (`none` encodes a non-finite
value), the external dynamics propagation acting on positions, velocities
and the extended variable, and the accept/reject outcome of comparing the
uniform draw with the Metropolis probability at the finalized work. -/
structure MoveCtx where
  kind : MoveKind
  cand : Nat
  nPertSteps : Nat
  placement : Option Vec3
  energy : SysState → Option ℚ
  prop : List Vec3 → List Vec3 → ℚ → List Vec3 × List Vec3 × ℚ
  accept : ℚ → Bool

/-- Modelled from the spec: one burst of dynamics propagation by the
external engine — it advances positions, velocities and the extended
variable, and has no access to the molecule records. -/
def applyDyn (ctx : MoveCtx) (s : SysState) : SysState :=
  let r := ctx.prop s.positions s.velocities s.extended
  { s with positions := r.1, velocities := r.2.1, extended := r.2.2 }

/-- Modelled from the spec: the perturbation/propagation loop of the Move
Driver: for each schedule stage, set the candidate's coupling parameter to
the stage value, evaluate the instantaneous potential energy before and
after, accumulate the difference into the work accumulator, then run the
dynamics burst.  A non-finite energy (`none`) at any stage aborts the whole
loop (`none` result: rejection with infinite work), skipping all remaining
stages. -/
def runStages (ctx : MoveCtx) : List ℚ → SysState → ℚ → Option (SysState × ℚ)
  | [], s, W => some (s, W)
  | l :: rest, s, W =>
    match ctx.energy s, ctx.energy (setLam ctx.cand l s) with
    | some e0, some e1 =>
        runStages ctx rest (applyDyn ctx (setLam ctx.cand l s)) (W + (e1 - e0))
    | _, _ => none

/-- The sampler after a rejected attempt: the full pre-move snapshot is
restored and only the attempted counter is incremented. -/
def rejectOf (sp : Sampler) : Sampler :=
  { sp with n_moves := sp.n_moves + 1 }

/-- The sampler after a committed attempt: the final system state with the
candidate's new activity flag, both counters incremented. -/
def commitOf (sp : Sampler) (ctx : MoveCtx) (s1 : SysState) : Sampler :=
  { sys := markActive ctx.cand ctx.kind.isInsertion s1,
    n_moves := sp.n_moves + 1,
    n_accepted := sp.n_accepted + 1 }

/-- Modelled from the spec: one full move attempt of the Nonequilibrium
Move Driver (missing `grand.samplers.NonequilibriumGCMCSphereSampler.move`):
snapshot the state, place the candidate (insertion only; a failed placement
rejects without perturbing the system), run the switching schedule
interleaved with dynamics (a non-finite energy aborts as rejection), then
let the Acceptance Engine decide on the finalized work: commit the activity
change on accept, restore the snapshot on reject.  The second component
reports whether the attempt committed. -/
def attemptMoveC (ctx : MoveCtx) (sp : Sampler) : Sampler × Bool :=
  match ctx.kind with
  | MoveKind.insertion =>
    match ctx.placement with
    | none => (rejectOf sp, false)
    | some p =>
      match runStages ctx (insertionSchedule ctx.nPertSteps)
          (placeMolecule sp.sys ctx.cand p) 0 with
      | none => (rejectOf sp, false)
      | some (s1, W) =>
        if ctx.accept W then (commitOf sp ctx s1, true) else (rejectOf sp, false)
  | MoveKind.deletion =>
    match runStages ctx (deletionSchedule ctx.nPertSteps) sp.sys 0 with
    | none => (rejectOf sp, false)
    | some (s1, W) =>
      if ctx.accept W then (commitOf sp ctx s1, true) else (rejectOf sp, false)

/-- Modelled from the spec: the move entry point, returning the updated
sampler. -/
def attemptMove (ctx : MoveCtx) (sp : Sampler) : Sampler :=
  (attemptMoveC ctx sp).1

/-- Modelled from the spec: `reset()` of Statistics and Reporting — zero the
attempted/accepted counters, touching neither `N` nor any physical state. -/
def reset (sp : Sampler) : Sampler :=
  { sp with n_moves := 0, n_accepted := 0 }

/-- A sequence of move attempts, executed left to right. -/
def runMoves (l : List MoveCtx) (sp : Sampler) : Sampler :=
  l.foldl (fun s c => attemptMove c s) sp

/-- Number of attempts of kind `k` in the sequence that actually commit,
evaluated along the run. -/
def committedCount (k : MoveKind) : List MoveCtx → Sampler → Nat
  | [], _ => 0
  | c :: rest, sp =>
      (if c.kind = k ∧ (attemptMoveC c sp).2 = true then 1 else 0) +
        committedCount k rest (attemptMove c sp)

/-- Modelled from the spec: a move context is valid for a state when its
candidate was selected by the documented policy — a ghost molecule for
insertion, an active molecule for deletion. -/
def validCtx (ctx : MoveCtx) (s : SysState) : Prop :=
  match ctx.kind with
  | MoveKind.insertion => ∃ m ∈ s.molecules, m.mid = ctx.cand ∧ m.active = false
  | MoveKind.deletion => ∃ m ∈ s.molecules, m.mid = ctx.cand ∧ m.active = true

/-- A whole sequence of move contexts is valid when each is valid for the
state it actually runs in. -/
def validSeq : List MoveCtx → Sampler → Prop
  | [], _ => True
  | c :: rest, sp => validCtx c sp.sys ∧ validSeq rest (attemptMove c sp)

/-- Modelled from the spec: the Acceptance Engine's insertion probability
(missing `grand.samplers` internals): the Metropolis expression
`min 1 (exp (-W/kT) * zV / (N+1))`, where `zV` combines the chemical
potential, standard-state correction and region volume, and `N+1` is the
combinatorial factor. -/
noncomputable def accInsert (N : ℕ) (W zV kT : ℝ) : ℝ :=
  min 1 (Real.exp (-(W / kT)) * (zV / (N + 1)))

/-- Modelled from the spec: the Acceptance Engine's deletion probability —
the reciprocal-form Metropolis expression `min 1 (exp (-W/kT) * N / zV)`,
deleting one of the `N` active molecules. -/
noncomputable def accDelete (N : ℕ) (W zV kT : ℝ) : ℝ :=
  min 1 (Real.exp (-(W / kT)) * (N / zV))

/-- Modelled from the spec: the insertion free-energy offset, defined so
that `exp (-offset/kT)` is the grand-canonical factor `zV / (N+1)`. -/
noncomputable def dGInsert (N : ℕ) (zV kT : ℝ) : ℝ :=
  -(kT * Real.log (zV / (N + 1)))

/-- Modelled from the spec: the deletion free-energy offset, defined so
that `exp (-offset/kT)` is the reciprocal factor `N / zV`. -/
noncomputable def dGDelete (N : ℕ) (zV kT : ℝ) : ℝ :=
  -(kT * Real.log (N / zV))

/-- Modelled from the spec: the (ideal-gas) grand-canonical equilibrium
weight of the state with `N` active molecules, `zV ^ N / N!`. -/
noncomputable def gcWeight (zV : ℝ) (N : ℕ) : ℝ :=
  zV ^ N / (N.factorial : ℝ)

/-- Final coupling value of a completed schedule: 1 for insertion, 0 for
deletion. -/
def endLam : MoveKind → ℚ
  | MoveKind.insertion => 1
  | MoveKind.deletion => 0

/-- Modelled from the spec: a molecule is well coupled when its lambda
matches its activity state exactly — 1 if active, 0 if ghost. -/
def WellCoupled (s : SysState) : Prop :=
  ∀ m ∈ s.molecules, m.lam = (if m.active then (1 : ℚ) else 0)

/-! ### Concrete fixtures used by the witness theorems -/

/-- A concrete two-molecule system: molecule 0 active, molecule 1 ghost. -/
def demoSys : SysState :=
  { positions := [⟨0, 0, 0⟩, ⟨1, 0, 0⟩],
    velocities := [⟨0, 0, 0⟩, ⟨0, 0, 0⟩],
    molecules := [⟨0, [0], true, 1⟩, ⟨1, [1], false, 0⟩],
    extended := 0 }

/-- A concrete sampler over `demoSys` with zeroed counters. -/
def demoSampler : Sampler := ⟨demoSys, 0, 0⟩

/-- A dynamics engine that leaves the state alone. -/
def idProp : List Vec3 → List Vec3 → ℚ → List Vec3 × List Vec3 × ℚ :=
  fun p v e => (p, v, e)

/-- An energy evaluation that is finite (zero) everywhere. -/
def zeroEnergy : SysState → Option ℚ := fun _ => some 0

/-- A concrete insertion context whose acceptance draw always accepts. -/
def insCtxAcc : MoveCtx :=
  { kind := MoveKind.insertion, cand := 1, nPertSteps := 1,
    placement := some ⟨0, 0, 0⟩, energy := zeroEnergy, prop := idProp,
    accept := fun _ => true }

/-- A concrete deletion context whose acceptance draw always rejects. -/
def delCtxRej : MoveCtx :=
  { kind := MoveKind.deletion, cand := 0, nPertSteps := 1,
    placement := none, energy := zeroEnergy, prop := idProp,
    accept := fun _ => false }

/-- A concrete deletion context whose acceptance draw always accepts. -/
def delCtxAcc : MoveCtx :=
  { kind := MoveKind.deletion, cand := 0, nPertSteps := 1,
    placement := none, energy := zeroEnergy, prop := idProp,
    accept := fun _ => true }

/-- A concrete insertion context whose energy evaluation turns non-finite
once the candidate has been placed at the clashing position `x = 99`. -/
def insCtxNonfinite : MoveCtx :=
  { kind := MoveKind.insertion, cand := 1, nPertSteps := 1,
    placement := some ⟨99, 0, 0⟩,
    energy := fun s =>
      if s.positions.any (fun v => decide (v.x = 99)) then none else some 0,
    prop := idProp, accept := fun _ => true }

/-! ## Theorems -/

/-! ### Shared lemmas about record adjustments -/

lemma adjustLam_of_ne {id : Nat} {l : ℚ} {m : Molecule} (h : ¬m.mid = id) :
    adjustLam id l m = m := by
  simp [adjustLam, h]

lemma adjustActive_of_ne {id : Nat} {b : Bool} {m : Molecule} (h : ¬m.mid = id) :
    adjustActive id b m = m := by
  simp [adjustActive, h]

lemma adjustLam_mid (id : Nat) (l : ℚ) (m : Molecule) :
    (adjustLam id l m).mid = m.mid := by
  by_cases h : m.mid = id <;> simp [adjustLam, h]

lemma adjustLam_active (id : Nat) (l : ℚ) (m : Molecule) :
    (adjustLam id l m).active = m.active := by
  by_cases h : m.mid = id <;> simp [adjustLam, h]

lemma adjustLam_particles (id : Nat) (l : ℚ) (m : Molecule) :
    (adjustLam id l m).particles = m.particles := by
  by_cases h : m.mid = id <;> simp [adjustLam, h]

lemma adjustActive_mid (id : Nat) (b : Bool) (m : Molecule) :
    (adjustActive id b m).mid = m.mid := by
  by_cases h : m.mid = id <;> simp [adjustActive, h]

lemma adjustActive_particles (id : Nat) (b : Bool) (m : Molecule) :
    (adjustActive id b m).particles = m.particles := by
  by_cases h : m.mid = id <;> simp [adjustActive, h]

lemma map_adjustLam_adjustLam (id : Nat) (l l' : ℚ) (ms : List Molecule) :
    (ms.map (adjustLam id l)).map (adjustLam id l') = ms.map (adjustLam id l') := by
  rw [List.map_map]
  apply List.map_congr_left
  intro m _
  by_cases h : m.mid = id <;> simp [adjustLam, h]

lemma countP_map_adjustLam (id : Nat) (l : ℚ) (ms : List Molecule) :
    (ms.map (adjustLam id l)).countP (fun m => m.active) =
      ms.countP (fun m => m.active) := by
  rw [List.countP_map]
  apply List.countP_congr
  intro m _
  by_cases h : m.mid = id <;> simp [adjustLam, h, Function.comp]

lemma map_mid_adjustLam (id : Nat) (l : ℚ) (ms : List Molecule) :
    (ms.map (adjustLam id l)).map (fun m => m.mid) = ms.map (fun m => m.mid) := by
  rw [List.map_map]
  apply List.map_congr_left
  intro m _
  simp [adjustLam_mid]

lemma map_skel_adjustLam (id : Nat) (l : ℚ) (ms : List Molecule) :
    (ms.map (adjustLam id l)).map (fun m => (m.mid, m.particles)) =
      ms.map (fun m => (m.mid, m.particles)) := by
  rw [List.map_map]
  apply List.map_congr_left
  intro m _
  simp [adjustLam_mid, adjustLam_particles]

lemma map_skel_adjustActive (id : Nat) (b : Bool) (ms : List Molecule) :
    (ms.map (adjustActive id b)).map (fun m => (m.mid, m.particles)) =
      ms.map (fun m => (m.mid, m.particles)) := by
  rw [List.map_map]
  apply List.map_congr_left
  intro m _
  simp [adjustActive_mid, adjustActive_particles]

lemma map_adjustActive_of_forall_ne {i : Nat} {b : Bool} {ms : List Molecule}
    (h : ∀ a ∈ ms, ¬a.mid = i) : ms.map (adjustActive i b) = ms := by
  induction ms with
  | nil => rfl
  | cons m rest ih =>
    rw [List.map_cons, adjustActive_of_ne (h m (List.mem_cons_self m rest)),
      ih (fun a ha => h a (List.mem_cons_of_mem m ha))]

lemma countP_adjustActive_true (id : Nat) :
    ∀ ms : List Molecule, (ms.map (fun m => m.mid)).Nodup →
      (∃ m ∈ ms, m.mid = id ∧ m.active = false) →
      (ms.map (adjustActive id true)).countP (fun m => m.active) =
        ms.countP (fun m => m.active) + 1 := by
  intro ms
  induction ms with
  | nil =>
    rintro _ ⟨m, hm, -, -⟩
    simp at hm
  | cons m rest ih =>
    rintro hnd ⟨m', hm', hmid, hact⟩
    rw [List.map_cons, List.nodup_cons] at hnd
    obtain ⟨hnotin, hndr⟩ := hnd
    rcases List.mem_cons.mp hm' with rfl | hmr
    · have hrest : rest.map (adjustActive id true) = rest := by
        apply map_adjustActive_of_forall_ne
        intro a ha hc
        exact hnotin (hmid ▸ hc ▸ List.mem_map_of_mem (fun m => m.mid) ha)
      rw [List.map_cons, List.countP_cons, List.countP_cons, hrest]
      simp [adjustActive, hmid, hact]
    · have hm0 : ¬m'.mid = m.mid := by
        intro hc
        exact hnotin (hc ▸ List.mem_map_of_mem (fun m => m.mid) hmr)
      have hmne : ¬m.mid = id := fun hc => hm0 (hmid.trans hc.symm)
      rw [List.map_cons, List.countP_cons, List.countP_cons,
        adjustActive_of_ne hmne, ih hndr ⟨m', hmr, hmid, hact⟩]
      omega

lemma countP_adjustActive_false (id : Nat) :
    ∀ ms : List Molecule, (ms.map (fun m => m.mid)).Nodup →
      (∃ m ∈ ms, m.mid = id ∧ m.active = true) →
      (ms.map (adjustActive id false)).countP (fun m => m.active) + 1 =
        ms.countP (fun m => m.active) := by
  intro ms
  induction ms with
  | nil =>
    rintro _ ⟨m, hm, -, -⟩
    simp at hm
  | cons m rest ih =>
    rintro hnd ⟨m', hm', hmid, hact⟩
    rw [List.map_cons, List.nodup_cons] at hnd
    obtain ⟨hnotin, hndr⟩ := hnd
    rcases List.mem_cons.mp hm' with rfl | hmr
    · have hrest : rest.map (adjustActive id false) = rest := by
        apply map_adjustActive_of_forall_ne
        intro a ha hc
        exact hnotin (hmid ▸ hc ▸ List.mem_map_of_mem (fun m => m.mid) ha)
      rw [List.map_cons, List.countP_cons, List.countP_cons, hrest]
      simp [adjustActive, hmid, hact]
    · have hm0 : ¬m'.mid = m.mid := by
        intro hc
        exact hnotin (hc ▸ List.mem_map_of_mem (fun m => m.mid) hmr)
      have hmne : ¬m.mid = id := fun hc => hm0 (hmid.trans hc.symm)
      rw [List.map_cons, List.countP_cons, List.countP_cons,
        adjustActive_of_ne hmne, ← ih hndr ⟨m', hmr, hmid, hact⟩]
      omega

/-! ### Shared lemmas about the schedule -/

lemma insertionSchedule_ne_nil (K : Nat) : insertionSchedule K ≠ [] := by
  intro h
  have := congrArg List.length h
  simp [insertionSchedule] at this

lemma deletionSchedule_ne_nil (K : Nat) : deletionSchedule K ≠ [] := by
  intro h
  have := congrArg List.length h
  simp [deletionSchedule, insertionSchedule] at this

lemma insertionSchedule_head? (K : Nat) :
    (insertionSchedule K).head? = some 0 := by
  rw [insertionSchedule, List.range_succ_eq_map]
  simp

lemma insertionSchedule_getLast? (K : Nat) (hK : 1 ≤ K) :
    (insertionSchedule K).getLast? = some 1 := by
  have hK0 : (K : ℚ) ≠ 0 := by positivity
  rw [insertionSchedule, List.range_succ, List.map_append]
  simp [div_self hK0]

lemma insertionSchedule_getLast (K : Nat) (hK : 1 ≤ K) :
    (insertionSchedule K).getLast (insertionSchedule_ne_nil K) = 1 := by
  have h := insertionSchedule_getLast? K hK
  rw [List.getLast?_eq_getLast _ (insertionSchedule_ne_nil K)] at h
  exact Option.some.inj h

lemma deletionSchedule_getLast (K : Nat) :
    (deletionSchedule K).getLast (deletionSchedule_ne_nil K) = 0 := by
  have h : (deletionSchedule K).getLast? = some 0 := by
    rw [deletionSchedule, List.getLast?_reverse, insertionSchedule_head?]
  rw [List.getLast?_eq_getLast _ (deletionSchedule_ne_nil K)] at h
  exact Option.some.inj h

lemma insertionSchedule_chain (K : Nat) (hK : 1 ≤ K) :
    List.Chain' (fun a b : ℚ => a ≤ b) (insertionSchedule K) := by
  have hKpos : (0 : ℚ) < (K : ℚ) := by exact_mod_cast hK
  rw [insertionSchedule, List.chain'_map, List.chain'_range_succ]
  intro m _
  rw [div_le_div_iff_of_pos_right hKpos]
  push_cast
  linarith

/-! ### Shared lemmas about the move driver -/

lemma applyDyn_molecules (ctx : MoveCtx) (s : SysState) :
    (applyDyn ctx s).molecules = s.molecules := rfl

lemma placeMolecule_molecules (s : SysState) (id : Nat) (p : Vec3) :
    (placeMolecule s id p).molecules = s.molecules := rfl

lemma runStages_molecules (ctx : MoveCtx) (lams : List ℚ) :
    ∀ (s : SysState) (W W' : ℚ) (s1 : SysState) (hne : lams ≠ []),
      runStages ctx lams s W = some (s1, W') →
      s1.molecules = s.molecules.map (adjustLam ctx.cand (lams.getLast hne)) := by
  induction lams with
  | nil =>
    intro s W W' s1 hne
    exact absurd rfl hne
  | cons l rest ih =>
    intro s W W' s1 _ h
    cases h0 : ctx.energy s with
    | none => rw [runStages, h0] at h; simp at h
    | some e0 =>
      cases h1 : ctx.energy (setLam ctx.cand l s) with
      | none => rw [runStages, h0, h1] at h; simp at h
      | some e1 =>
        have hstep : runStages ctx (l :: rest) s W =
            runStages ctx rest (applyDyn ctx (setLam ctx.cand l s)) (W + (e1 - e0)) := by
          rw [runStages]
          rw [h0, h1]
        rw [hstep] at h
        cases rest with
        | nil =>
          simp only [runStages] at h
          simp only [Option.some.injEq, Prod.mk.injEq] at h
          obtain ⟨hs, -⟩ := h
          rw [← hs, applyDyn_molecules]
          rfl
        | cons l2 rest2 =>
          have hr := ih (applyDyn ctx (setLam ctx.cand l s)) (W + (e1 - e0)) W' s1
            (by simp) h
          rw [hr, applyDyn_molecules]
          show (s.molecules.map (adjustLam ctx.cand l)).map _ = _
          rw [map_adjustLam_adjustLam]
          rfl

lemma attemptMoveC_spec (ctx : MoveCtx) (sp : Sampler) :
    attemptMoveC ctx sp = (rejectOf sp, false) ∨
    ∃ s1 W,
      attemptMoveC ctx sp = (commitOf sp ctx s1, true) ∧
      ctx.accept W = true ∧
      ((ctx.kind = MoveKind.insertion ∧ ∃ p, ctx.placement = some p ∧
          runStages ctx (insertionSchedule ctx.nPertSteps)
            (placeMolecule sp.sys ctx.cand p) 0 = some (s1, W)) ∨
       (ctx.kind = MoveKind.deletion ∧
          runStages ctx (deletionSchedule ctx.nPertSteps) sp.sys 0 = some (s1, W))) := by
  cases hk : ctx.kind with
  | insertion =>
    cases hp : ctx.placement with
    | none =>
      left
      simp only [attemptMoveC, hk, hp]
    | some p =>
      cases hr : runStages ctx (insertionSchedule ctx.nPertSteps)
          (placeMolecule sp.sys ctx.cand p) 0 with
      | none =>
        left
        simp only [attemptMoveC, hk, hp, hr]
      | some pr =>
        obtain ⟨s1, W⟩ := pr
        cases ha : ctx.accept W with
        | false =>
          left
          simp only [attemptMoveC, hk, hp, hr, ha]
          rfl
        | true =>
          right
          exact ⟨s1, W, by simp only [attemptMoveC, hk, hp, hr, ha]; rfl, ha,
            Or.inl ⟨rfl, p, rfl, hr⟩⟩
  | deletion =>
    cases hr : runStages ctx (deletionSchedule ctx.nPertSteps) sp.sys 0 with
    | none =>
      left
      simp only [attemptMoveC, hk, hr]
    | some pr =>
      obtain ⟨s1, W⟩ := pr
      cases ha : ctx.accept W with
      | false =>
        left
        simp only [attemptMoveC, hk, hr, ha]
        rfl
      | true =>
        right
        exact ⟨s1, W, by simp only [attemptMoveC, hk, hr, ha]; rfl, ha,
          Or.inr ⟨rfl, rfl⟩⟩

lemma attemptMove_not_committed {ctx : MoveCtx} {sp : Sampler}
    (h : (attemptMoveC ctx sp).2 = false) :
    attemptMove ctx sp = { sp with n_moves := sp.n_moves + 1 } := by
  rcases attemptMoveC_spec ctx sp with h1 | ⟨s1, W, h1, -, -⟩
  · rw [attemptMove, h1]
    rfl
  · rw [h1] at h
    simp at h

lemma attemptMove_committed {ctx : MoveCtx} {sp : Sampler}
    (h : (attemptMoveC ctx sp).2 = true) :
    ∃ s1 lam,
      attemptMove ctx sp = commitOf sp ctx s1 ∧
      s1.molecules = sp.sys.molecules.map (adjustLam ctx.cand lam) ∧
      (1 ≤ ctx.nPertSteps → lam = endLam ctx.kind) := by
  rcases attemptMoveC_spec ctx sp with h1 | ⟨s1, W, h1, -, hcase⟩
  · rw [h1] at h
    simp at h
  · rcases hcase with ⟨hk, p, hp, hr⟩ | ⟨hk, hr⟩
    · refine ⟨s1, (insertionSchedule ctx.nPertSteps).getLast
        (insertionSchedule_ne_nil _), ?_, ?_, ?_⟩
      · rw [attemptMove, h1]
      · have hm := runStages_molecules ctx (insertionSchedule ctx.nPertSteps)
          (placeMolecule sp.sys ctx.cand p) 0 W s1 (insertionSchedule_ne_nil _) hr
        rw [hm, placeMolecule_molecules]
      · intro hK
        rw [hk]
        exact insertionSchedule_getLast _ hK
    · refine ⟨s1, (deletionSchedule ctx.nPertSteps).getLast
        (deletionSchedule_ne_nil _), ?_, ?_, ?_⟩
      · rw [attemptMove, h1]
      · exact runStages_molecules ctx (deletionSchedule ctx.nPertSteps)
          sp.sys 0 W s1 (deletionSchedule_ne_nil _) hr
      · intro hK
        rw [hk]
        exact deletionSchedule_getLast _

lemma molSkeleton_attemptMove (ctx : MoveCtx) (sp : Sampler) :
    molSkeleton (attemptMove ctx sp).sys = molSkeleton sp.sys := by
  by_cases h : (attemptMoveC ctx sp).2 = true
  · obtain ⟨s1, lam, heq, hmol, -⟩ := attemptMove_committed h
    rw [heq]
    show molSkeleton (markActive ctx.cand ctx.kind.isInsertion s1) = _
    rw [molSkeleton, markActive]
    show (s1.molecules.map (adjustActive ctx.cand ctx.kind.isInsertion)).map _ = _
    rw [map_skel_adjustActive, hmol, map_skel_adjustLam]
    rfl
  · rw [attemptMove_not_committed (Bool.eq_false_iff.mpr h)]

lemma molIds_eq_skel_fst (s : SysState) :
    molIds s = (molSkeleton s).map Prod.fst := by
  rw [molIds, molSkeleton, List.map_map]
  rfl

lemma molIds_attemptMove (ctx : MoveCtx) (sp : Sampler) :
    molIds (attemptMove ctx sp).sys = molIds sp.sys := by
  rw [molIds_eq_skel_fst, molIds_eq_skel_fst, molSkeleton_attemptMove]

lemma activeCount_eq_countP (s : SysState) :
    activeCount s = s.molecules.countP (fun m => m.active) :=
  (List.countP_eq_length_filter _ _).symm

lemma N_attemptMove_committed {ctx : MoveCtx} {sp : Sampler}
    (hc : (attemptMoveC ctx sp).2 = true)
    (hnd : (molIds sp.sys).Nodup) (hv : validCtx ctx sp.sys) :
    (ctx.kind = MoveKind.insertion → (attemptMove ctx sp).N = sp.N + 1) ∧
    (ctx.kind = MoveKind.deletion → (attemptMove ctx sp).N + 1 = sp.N) := by
  obtain ⟨s1, lam, heq, hmol, -⟩ := attemptMove_committed hc
  constructor
  · intro hk
    rw [heq]
    show activeCount (markActive ctx.cand ctx.kind.isInsertion s1) = sp.N + 1
    rw [hk]
    rw [validCtx, hk] at hv
    obtain ⟨m0, hm0, hmid0, hact0⟩ := hv
    have hv1 : ∃ m ∈ s1.molecules, m.mid = ctx.cand ∧ m.active = false := by
      refine ⟨adjustLam ctx.cand lam m0, ?_, ?_, ?_⟩
      · rw [hmol]
        exact List.mem_map_of_mem _ hm0
      · rw [adjustLam_mid, hmid0]
      · rw [adjustLam_active, hact0]
    have hnd1 : (s1.molecules.map (fun m => m.mid)).Nodup := by
      rw [hmol, map_mid_adjustLam]
      exact hnd
    show activeCount { s1 with
      molecules := s1.molecules.map (adjustActive ctx.cand MoveKind.insertion.isInsertion) } = _
    rw [activeCount_eq_countP]
    show (s1.molecules.map (adjustActive ctx.cand true)).countP _ = _
    rw [countP_adjustActive_true ctx.cand s1.molecules hnd1 hv1, hmol,
      countP_map_adjustLam]
    rw [Sampler.N, activeCount_eq_countP]
  · intro hk
    rw [heq]
    show activeCount (markActive ctx.cand ctx.kind.isInsertion s1) + 1 = sp.N
    rw [hk]
    rw [validCtx, hk] at hv
    obtain ⟨m0, hm0, hmid0, hact0⟩ := hv
    have hv1 : ∃ m ∈ s1.molecules, m.mid = ctx.cand ∧ m.active = true := by
      refine ⟨adjustLam ctx.cand lam m0, ?_, ?_, ?_⟩
      · rw [hmol]
        exact List.mem_map_of_mem _ hm0
      · rw [adjustLam_mid, hmid0]
      · rw [adjustLam_active, hact0]
    have hnd1 : (s1.molecules.map (fun m => m.mid)).Nodup := by
      rw [hmol, map_mid_adjustLam]
      exact hnd
    show activeCount { s1 with
      molecules := s1.molecules.map (adjustActive ctx.cand MoveKind.deletion.isInsertion) } + 1 = _
    rw [activeCount_eq_countP]
    show (s1.molecules.map (adjustActive ctx.cand false)).countP _ + 1 = _
    rw [countP_adjustActive_false ctx.cand s1.molecules hnd1 hv1, hmol,
      countP_map_adjustLam]
    rw [Sampler.N, activeCount_eq_countP]

lemma N_attemptMove_not_committed {ctx : MoveCtx} {sp : Sampler}
    (hc : (attemptMoveC ctx sp).2 = false) :
    (attemptMove ctx sp).N = sp.N := by
  rw [attemptMove_not_committed hc]
  rfl

/-- C9: `reset()` zeroes the attempted and accepted counters while leaving
`N` and all molecule/physical state unchanged, and it is idempotent. -/
theorem reset_zeroes_counters_only_and_idempotent (sp : Sampler) :
    (reset sp).n_moves = 0 ∧ (reset sp).n_accepted = 0 ∧
    (reset sp).sys = sp.sys ∧ (reset sp).N = sp.N ∧
    reset (reset sp) = reset sp :=
  ⟨rfl, rfl, rfl, rfl, rfl⟩

/-- C5: for every stage count K ≥ 1 the Switching Schedule is a
deterministic function of K producing exactly K+1 coupling values, monotone,
starting at exactly 0 and ending at exactly 1 for insertion, and starting at
exactly 1 and ending at exactly 0 (antitone) for deletion. -/
theorem schedule_endpoints_and_monotone (K : Nat) (hK : 1 ≤ K) :
    (insertionSchedule K).length = K + 1 ∧
    (insertionSchedule K).head? = some 0 ∧
    (insertionSchedule K).getLast? = some 1 ∧
    List.Chain' (fun a b => a ≤ b) (insertionSchedule K) ∧
    (deletionSchedule K).length = K + 1 ∧
    (deletionSchedule K).head? = some 1 ∧
    (deletionSchedule K).getLast? = some 0 ∧
    List.Chain' (fun a b => b ≤ a) (deletionSchedule K) := by
  have hKpos : (0 : ℚ) < (K : ℚ) := by exact_mod_cast hK
  have hK0 : (K : ℚ) ≠ 0 := ne_of_gt hKpos
  have hhead : (insertionSchedule K).head? = some 0 := by
    rw [insertionSchedule, List.range_succ_eq_map]
    simp
  have hlast : (insertionSchedule K).getLast? = some 1 := by
    rw [insertionSchedule, List.range_succ, List.map_append]
    simp [div_self hK0]
  have hchain : List.Chain' (fun a b : ℚ => a ≤ b) (insertionSchedule K) := by
    rw [insertionSchedule, List.chain'_map, List.chain'_range_succ]
    intro m _
    rw [div_le_div_iff_of_pos_right hKpos]
    push_cast
    linarith
  refine ⟨by simp [insertionSchedule], hhead, hlast, hchain, ?_, ?_, ?_, ?_⟩
  · simp [deletionSchedule, insertionSchedule]
  · rw [deletionSchedule, List.head?_reverse, hlast]
  · rw [deletionSchedule, List.getLast?_reverse, hhead]
  · rw [deletionSchedule, List.chain'_reverse]
    exact hchain

/-- Witness for C5 at the concrete stage count K = 2. -/
theorem schedule_endpoints_and_monotone_witness :
    (insertionSchedule 2).length = 2 + 1 ∧
    (insertionSchedule 2).head? = some 0 ∧
    (insertionSchedule 2).getLast? = some 1 ∧
    List.Chain' (fun a b => a ≤ b) (insertionSchedule 2) ∧
    (deletionSchedule 2).length = 2 + 1 ∧
    (deletionSchedule 2).head? = some 1 ∧
    (deletionSchedule 2).getLast? = some 0 ∧
    List.Chain' (fun a b => b ≤ a) (deletionSchedule 2) :=
  schedule_endpoints_and_monotone 2 (by norm_num)

/-- C1: every move attempt is atomic.  An attempt that does not commit
(placement failure, non-finite energy at some stage, or rejection by the
acceptance criterion) returns the full mutable state exactly equal to the
pre-attempt snapshot with only the attempted counter incremented; an
attempt that commits returns the complete committed state of the finished
schedule with both counters incremented.  No other outcome exists, so no
partial-move state is ever observable outside the Move Driver. -/
theorem attemptMove_atomic (ctx : MoveCtx) (sp : Sampler) :
    ((attemptMoveC ctx sp).2 = false →
      attemptMove ctx sp =
        { sys := sp.sys, n_moves := sp.n_moves + 1,
          n_accepted := sp.n_accepted }) ∧
    ((attemptMoveC ctx sp).2 = true →
      ∃ s1 W,
        ctx.accept W = true ∧
        ((ctx.kind = MoveKind.insertion ∧ ∃ p, ctx.placement = some p ∧
            runStages ctx (insertionSchedule ctx.nPertSteps)
              (placeMolecule sp.sys ctx.cand p) 0 = some (s1, W)) ∨
         (ctx.kind = MoveKind.deletion ∧
            runStages ctx (deletionSchedule ctx.nPertSteps) sp.sys 0 =
              some (s1, W))) ∧
        attemptMove ctx sp =
          { sys := markActive ctx.cand ctx.kind.isInsertion s1,
            n_moves := sp.n_moves + 1, n_accepted := sp.n_accepted + 1 }) := by
  constructor
  · intro h
    exact attemptMove_not_committed h
  · intro h
    rcases attemptMoveC_spec ctx sp with h1 | ⟨s1, W, h1, ha, hcase⟩
    · rw [h1] at h
      simp at h
    · exact ⟨s1, W, ha, hcase, by rw [attemptMove, h1]; rfl⟩

/-- Witness for C1: a concrete rejected deletion attempt restores the
snapshot exactly and increments only the attempted counter. -/
theorem attemptMove_atomic_witness :
    (attemptMoveC delCtxRej demoSampler).2 = false ∧
    attemptMove delCtxRej demoSampler =
      { sys := demoSampler.sys, n_moves := demoSampler.n_moves + 1,
        n_accepted := demoSampler.n_accepted } :=
  ⟨by decide, (attemptMove_atomic delCtxRej demoSampler).1 (by decide)⟩

/-- C2: particle-number conservation.  After any valid sequence of move
attempts the active-molecule count `N` equals the initial `N` plus the
number of committed insertions minus the number of committed deletions, and
a rejected attempt never changes `N`. -/
theorem N_conservation :
    (∀ (l : List MoveCtx) (sp : Sampler), validSeq l sp →
      (molIds sp.sys).Nodup →
      ((runMoves l sp).N : ℤ) =
        (sp.N : ℤ) + committedCount MoveKind.insertion l sp
          - committedCount MoveKind.deletion l sp) ∧
    (∀ (ctx : MoveCtx) (sp : Sampler), (attemptMoveC ctx sp).2 = false →
      (attemptMove ctx sp).N = sp.N) := by
  constructor
  · intro l
    induction l with
    | nil =>
      intro sp _ _
      simp [runMoves, committedCount]
    | cons c rest ih =>
      intro sp hseq hnd
      obtain ⟨hv, hseq2⟩ := hseq
      have hnd2 : (molIds (attemptMove c sp).sys).Nodup := by
        rw [molIds_attemptMove]
        exact hnd
      have hrec := ih (attemptMove c sp) hseq2 hnd2
      show ((runMoves rest (attemptMove c sp)).N : ℤ) = _
      rw [committedCount, committedCount]
      by_cases hc : (attemptMoveC c sp).2 = true
      · cases hk : c.kind with
        | insertion =>
          have hN := (N_attemptMove_committed hc hnd hv).1 hk
          rw [if_pos ⟨rfl, hc⟩, if_neg
            (fun hcon => MoveKind.noConfusion hcon.1)]
          rw [hrec, hN]
          push_cast
          ring
        | deletion =>
          have hN := (N_attemptMove_committed hc hnd hv).2 hk
          rw [if_neg (fun hcon => MoveKind.noConfusion hcon.1),
            if_pos ⟨rfl, hc⟩]
          rw [hrec, ← hN]
          push_cast
          ring
      · have hc2 : (attemptMoveC c sp).2 = false := Bool.eq_false_iff.mpr hc
        have hN := N_attemptMove_not_committed hc2
        rw [if_neg (fun hcon => hc hcon.2), if_neg (fun hcon => hc hcon.2)]
        rw [hrec, hN]
        push_cast
        ring
  · intro ctx sp h
    exact N_attemptMove_not_committed h

/-- Witness for C2: one committed insertion on the concrete two-molecule
sampler raises `N` from 1 to 2. -/
theorem N_conservation_witness :
    validSeq [insCtxAcc] demoSampler ∧ (molIds demoSampler.sys).Nodup ∧
    ((runMoves [insCtxAcc] demoSampler).N : ℤ) =
      (demoSampler.N : ℤ) +
        committedCount MoveKind.insertion [insCtxAcc] demoSampler -
        committedCount MoveKind.deletion [insCtxAcc] demoSampler := by
  have hv : validSeq [insCtxAcc] demoSampler := by
    refine ⟨⟨⟨1, [1], false, 0⟩, ?_, rfl, rfl⟩, trivial⟩
    decide
  have hnd : (molIds demoSampler.sys).Nodup := by decide
  exact ⟨hv, hnd, N_conservation.1 [insCtxAcc] demoSampler hv hnd⟩

lemma placeParticles_length (idxs : List Nat) : ∀ (ps : List Vec3) (p : Vec3),
    (placeParticles ps idxs p).length = ps.length := by
  induction idxs with
  | nil =>
    intro ps p
    rfl
  | cons i rest ih =>
    intro ps p
    show (placeParticles (ps.set i p) rest p).length = ps.length
    rw [ih (ps.set i p) p, List.length_set]

/-- C6: a non-finite energy at any switching stage aborts the move
immediately as a rejection.  The loop returns the abort marker regardless of
the remaining stages (they are skipped), the attempt restores the full
pre-move state and increments only the attempted counter, and the run
continues with the following attempts. -/
theorem nonfinite_energy_move_local (ctx : MoveCtx) (sp : Sampler) :
    (∀ (l : ℚ) (rest : List ℚ) (s : SysState) (W : ℚ),
      (ctx.energy s = none ∨ ctx.energy (setLam ctx.cand l s) = none) →
      runStages ctx (l :: rest) s W = none) ∧
    (∀ p, ctx.kind = MoveKind.insertion → ctx.placement = some p →
      runStages ctx (insertionSchedule ctx.nPertSteps)
        (placeMolecule sp.sys ctx.cand p) 0 = none →
      attemptMove ctx sp =
        { sys := sp.sys, n_moves := sp.n_moves + 1,
          n_accepted := sp.n_accepted }) ∧
    (ctx.kind = MoveKind.deletion →
      runStages ctx (deletionSchedule ctx.nPertSteps) sp.sys 0 = none →
      attemptMove ctx sp =
        { sys := sp.sys, n_moves := sp.n_moves + 1,
          n_accepted := sp.n_accepted }) ∧
    (∀ rest, runMoves (ctx :: rest) sp = runMoves rest (attemptMove ctx sp)) := by
  refine ⟨?_, ?_, ?_, fun rest => rfl⟩
  · intro l rest s W h
    rcases h with h | h
    · simp only [runStages, h]
    · cases h0 : ctx.energy s with
      | none => simp only [runStages, h0]
      | some e0 => simp only [runStages, h0, h]
  · intro p hk hp hr
    rw [attemptMove]
    simp only [attemptMoveC, hk, hp, hr]
    rfl
  · intro hk hr
    rw [attemptMove]
    simp only [attemptMoveC, hk, hr]
    rfl

/-- Witness for C6: a concrete insertion attempt whose energy turns
non-finite mid-schedule is rejected with the snapshot restored and only the
attempted counter incremented. -/
theorem nonfinite_energy_move_local_witness :
    insCtxNonfinite.kind = MoveKind.insertion ∧
    insCtxNonfinite.placement = some ⟨99, 0, 0⟩ ∧
    runStages insCtxNonfinite (insertionSchedule insCtxNonfinite.nPertSteps)
      (placeMolecule demoSampler.sys insCtxNonfinite.cand ⟨99, 0, 0⟩) 0 = none ∧
    attemptMove insCtxNonfinite demoSampler =
      { sys := demoSampler.sys, n_moves := demoSampler.n_moves + 1,
        n_accepted := demoSampler.n_accepted } :=
  ⟨rfl, rfl, by decide,
    (nonfinite_energy_move_local insCtxNonfinite demoSampler).2.1
      ⟨99, 0, 0⟩ rfl rfl (by decide)⟩

/-- C7: `activate` and `deactivate` change only the targeted molecule's
record, never the particle count of the underlying system, and every Ghost
Registry entry (its identity and constituent particles) persists unchanged
through any whole run of move attempts. -/
theorem registry_frame_and_persistence :
    (∀ (s : SysState) (id : Nat) (p : Vec3),
      (activate s id p).positions.length = s.positions.length ∧
      (activate s id p).molecules.length = s.molecules.length ∧
      ∀ m ∈ s.molecules, ¬m.mid = id → m ∈ (activate s id p).molecules) ∧
    (∀ (s : SysState) (id : Nat),
      (deactivate s id).positions.length = s.positions.length ∧
      (deactivate s id).molecules.length = s.molecules.length ∧
      ∀ m ∈ s.molecules, ¬m.mid = id → m ∈ (deactivate s id).molecules) ∧
    (∀ (l : List MoveCtx) (sp : Sampler),
      molSkeleton (runMoves l sp).sys = molSkeleton sp.sys) := by
  refine ⟨?_, ?_, ?_⟩
  · intro s id p
    refine ⟨placeParticles_length _ _ _, List.length_map _ _, ?_⟩
    intro m hm hne
    have hfix : (fun m : Molecule =>
        if m.mid = id then { m with active := true, lam := 1 } else m) m = m := by
      simp [hne]
    exact hfix ▸ List.mem_map_of_mem _ hm
  · intro s id
    refine ⟨rfl, List.length_map _ _, ?_⟩
    intro m hm hne
    have hfix : (fun m : Molecule =>
        if m.mid = id then { m with active := false, lam := 0 } else m) m = m := by
      simp [hne]
    exact hfix ▸ List.mem_map_of_mem _ hm
  · intro l
    induction l with
    | nil =>
      intro sp
      rfl
    | cons c rest ih =>
      intro sp
      show molSkeleton (runMoves rest (attemptMove c sp)).sys = _
      rw [ih (attemptMove c sp), molSkeleton_attemptMove]

/-- Witness for C7: activating molecule 1 leaves the other molecule's
record untouched. -/
theorem registry_frame_and_persistence_witness :
    (⟨0, [0], true, 1⟩ : Molecule) ∈ demoSys.molecules ∧
    ¬(⟨0, [0], true, 1⟩ : Molecule).mid = 1 ∧
    (⟨0, [0], true, 1⟩ : Molecule) ∈ (activate demoSys 1 ⟨0, 0, 0⟩).molecules :=
  ⟨by decide, by decide,
    (registry_frame_and_persistence.1 demoSys 1 ⟨0, 0, 0⟩).2.2
      ⟨0, [0], true, 1⟩ (by decide) (by decide)⟩

/-- C8: with a positive stage count, a move attempt preserves the invariant
that every molecule is fully active with lambda 1 or fully ghost with
lambda 0 (so no molecule persists at fractional coupling between attempts),
and at schedule completion the candidate's lambda is exactly 1 for
insertion and exactly 0 for deletion. -/
theorem coupling_binary_between_attempts (ctx : MoveCtx) (sp : Sampler)
    (hK : 1 ≤ ctx.nPertSteps) :
    (WellCoupled sp.sys → WellCoupled (attemptMove ctx sp).sys) ∧
    (∀ (p : Vec3) (s1 : SysState) (W : ℚ),
      runStages ctx (insertionSchedule ctx.nPertSteps)
        (placeMolecule sp.sys ctx.cand p) 0 = some (s1, W) →
      ∀ m ∈ s1.molecules, m.mid = ctx.cand → m.lam = 1) ∧
    (∀ (s1 : SysState) (W : ℚ),
      runStages ctx (deletionSchedule ctx.nPertSteps) sp.sys 0 = some (s1, W) →
      ∀ m ∈ s1.molecules, m.mid = ctx.cand → m.lam = 0) := by
  refine ⟨?_, ?_, ?_⟩
  · intro hwc
    by_cases hc : (attemptMoveC ctx sp).2 = true
    · obtain ⟨s1, lam, heq, hmol, hend⟩ := attemptMove_committed hc
      have hl := hend hK
      rw [heq]
      intro m hm
      have hm2 : m ∈ (s1.molecules.map (adjustActive ctx.cand ctx.kind.isInsertion)) := hm
      rw [hmol, List.map_map] at hm2
      obtain ⟨m0, hm0, rfl⟩ := List.mem_map.mp hm2
      by_cases hmid : m0.mid = ctx.cand
      · have hcomp : (adjustActive ctx.cand ctx.kind.isInsertion ∘
            adjustLam ctx.cand lam) m0 =
            { m0 with lam := lam, active := ctx.kind.isInsertion } := by
          show adjustActive _ _ (adjustLam _ _ m0) = _
          rw [adjustLam, if_pos hmid, adjustActive]
          simp [hmid]
        rw [hcomp]
        show lam = if ctx.kind.isInsertion = true then (1 : ℚ) else 0
        cases hk : ctx.kind with
        | insertion =>
          rw [hk] at hl
          simp only [endLam] at hl
          simp [MoveKind.isInsertion, hl]
        | deletion =>
          rw [hk] at hl
          simp only [endLam] at hl
          simp [MoveKind.isInsertion, hl]
      · have hcomp : (adjustActive ctx.cand ctx.kind.isInsertion ∘
            adjustLam ctx.cand lam) m0 = m0 := by
          show adjustActive _ _ (adjustLam _ _ m0) = _
          rw [adjustLam_of_ne hmid, adjustActive_of_ne hmid]
        rw [hcomp]
        exact hwc m0 hm0
    · rw [attemptMove_not_committed (Bool.eq_false_iff.mpr hc)]
      exact hwc
  · intro p s1 W hr m hm hmid
    have hmol := runStages_molecules ctx (insertionSchedule ctx.nPertSteps)
      (placeMolecule sp.sys ctx.cand p) 0 W s1 (insertionSchedule_ne_nil _) hr
    rw [hmol, placeMolecule_molecules] at hm
    obtain ⟨m0, hm0, rfl⟩ := List.mem_map.mp hm
    rw [adjustLam_mid] at hmid
    show (adjustLam ctx.cand _ m0).lam = 1
    rw [adjustLam, if_pos hmid]
    exact insertionSchedule_getLast _ hK
  · intro s1 W hr m hm hmid
    have hmol := runStages_molecules ctx (deletionSchedule ctx.nPertSteps)
      sp.sys 0 W s1 (deletionSchedule_ne_nil _) hr
    rw [hmol] at hm
    obtain ⟨m0, hm0, rfl⟩ := List.mem_map.mp hm
    rw [adjustLam_mid] at hmid
    show (adjustLam ctx.cand _ m0).lam = 0
    rw [adjustLam, if_pos hmid]
    exact deletionSchedule_getLast _

/-- Witness for C8: the accepted insertion on the concrete sampler keeps
every molecule's lambda at exactly 0 or 1. -/
theorem coupling_binary_between_attempts_witness :
    WellCoupled demoSampler.sys ∧
    WellCoupled (attemptMove insCtxAcc demoSampler).sys := by
  have h1 : WellCoupled demoSampler.sys := by
    unfold WellCoupled
    decide
  exact ⟨h1,
    (coupling_binary_between_attempts insCtxAcc demoSampler (by decide)).1 h1⟩

/-- C10: `deleteWatersInGCMCSphere` deactivates every active molecule
currently inside the sampling sphere — immediately afterwards the set of
deletion candidates in the region is empty — and affects neither positions
nor any molecule outside the sphere. -/
theorem deleteWaters_empties_sphere (c : Vec3) (r : ℚ) (s : SysState) :
    candidatesForDeletion c r (deleteWatersInGCMCSphere c r s) = [] ∧
    (deleteWatersInGCMCSphere c r s).positions = s.positions ∧
    (deleteWatersInGCMCSphere c r s).molecules.length = s.molecules.length ∧
    (∀ m ∈ s.molecules, inRegion c r s m = false →
      m ∈ (deleteWatersInGCMCSphere c r s).molecules) ∧
    (∀ m ∈ s.molecules, m.active = true → inRegion c r s m = true →
      ({ m with active := false, lam := 0 } : Molecule) ∈
        (deleteWatersInGCMCSphere c r s).molecules) := by
  refine ⟨?_, rfl, List.length_map _ _, ?_, ?_⟩
  · rw [candidatesForDeletion, List.filter_eq_nil_iff]
    intro a ha
    rw [deleteWatersInGCMCSphere] at ha
    obtain ⟨m, hm, rfl⟩ := List.mem_map.mp ha
    by_cases hcond : (m.active && inRegion c r s m) = true
    · rw [if_pos hcond]
      simp
    · rw [if_neg hcond]
      exact fun hcon => hcond hcon
  · intro m hm hreg
    have hfix : (fun m : Molecule =>
        if m.active && inRegion c r s m then { m with active := false, lam := 0 }
        else m) m = m := by
      simp [hreg]
    exact hfix ▸ List.mem_map_of_mem _ hm
  · intro m hm hact hreg
    have hfix : (fun m : Molecule =>
        if m.active && inRegion c r s m then { m with active := false, lam := 0 }
        else m) m = ({ m with active := false, lam := 0 } : Molecule) := by
      simp [hact, hreg]
    exact hfix ▸ List.mem_map_of_mem _ hm

/-- Witness for C10: on the concrete system with an active in-sphere
molecule and an out-of-sphere molecule, the sphere is emptied and the
outside molecule is untouched. -/
theorem deleteWaters_empties_sphere_witness :
    candidatesForDeletion ⟨0, 0, 0⟩ 2 (deleteWatersInGCMCSphere ⟨0, 0, 0⟩ 2 demoSys) = [] ∧
    (⟨0, [0], true, 1⟩ : Molecule) ∈ demoSys.molecules ∧
    (⟨0, [0], true, 1⟩ : Molecule).active = true ∧
    inRegion ⟨0, 0, 0⟩ 2 demoSys ⟨0, [0], true, 1⟩ = true ∧
    ({ mid := 0, particles := [0], active := false, lam := 0 } : Molecule) ∈
      (deleteWatersInGCMCSphere ⟨0, 0, 0⟩ 2 demoSys).molecules := by
  have hreg : inRegion ⟨0, 0, 0⟩ 2 demoSys ⟨0, [0], true, 1⟩ = true := by
    norm_num [inRegion, molPos, demoSys, contains, dist2]
  exact ⟨(deleteWaters_empties_sphere ⟨0, 0, 0⟩ 2 demoSys).1, by decide, rfl, hreg,
    (deleteWaters_empties_sphere ⟨0, 0, 0⟩ 2 demoSys).2.2.2.2
      ⟨0, [0], true, 1⟩ (by decide) rfl hreg⟩

lemma metropolis_flip (r c : ℝ) (hr : 0 < r) :
    min 1 r * c = min 1 r⁻¹ * (r * c) := by
  rcases le_total r 1 with h | h
  · rw [min_eq_right h, min_eq_left ((one_le_inv₀ hr).2 h)]
    ring
  · rw [min_eq_left h, min_eq_right (inv_le_one_of_one_le₀ h)]
    field_simp

/-- C4: for every finalized work value, positive temperature and ensemble
parameters, the Acceptance Engine returns `min 1 (exp (-(W+dG)/kT))` for
insertion and the reciprocal-form Metropolis expression for deletion, and
both probabilities lie in the closed interval [0, 1]. -/
theorem acceptance_probability_bounds (N : ℕ) (W zV kT : ℝ)
    (hzV : 0 < zV) (hkT : 0 < kT) :
    accInsert N W zV kT =
      min 1 (Real.exp (-((W + dGInsert N zV kT) / kT))) ∧
    (0 < N → accDelete N W zV kT =
      min 1 (Real.exp (-((W + dGDelete N zV kT) / kT)))) ∧
    0 ≤ accInsert N W zV kT ∧ accInsert N W zV kT ≤ 1 ∧
    0 ≤ accDelete N W zV kT ∧ accDelete N W zV kT ≤ 1 := by
  have hkT0 : kT ≠ 0 := ne_of_gt hkT
  have hX : (0:ℝ) < zV / ((N:ℝ) + 1) := by positivity
  refine ⟨?_, ?_, ?_, ?_, ?_, ?_⟩
  · rw [accInsert]
    congr 1
    rw [show -((W + dGInsert N zV kT) / kT)
        = -(W / kT) + Real.log (zV / ((N:ℝ) + 1)) by
      rw [dGInsert]; field_simp; ring]
    rw [Real.exp_add, Real.exp_log hX]
  · intro hN
    have hN2 : (0:ℝ) < (N:ℝ) := by exact_mod_cast hN
    have hY : (0:ℝ) < (N:ℝ) / zV := div_pos hN2 hzV
    rw [accDelete]
    congr 1
    rw [show -((W + dGDelete N zV kT) / kT)
        = -(W / kT) + Real.log ((N:ℝ) / zV) by
      rw [dGDelete]; field_simp; ring]
    rw [Real.exp_add, Real.exp_log hY]
  · rw [accInsert]
    exact le_min zero_le_one (by positivity)
  · rw [accInsert]
    exact min_le_left _ _
  · rw [accDelete]
    exact le_min zero_le_one (by positivity)
  · rw [accDelete]
    exact min_le_left _ _

/-- Witness for C4 at N = 1, W = 0, zV = 1, kT = 1. -/
theorem acceptance_probability_bounds_witness :
    accInsert 1 0 1 1 =
      min 1 (Real.exp (-((0 + dGInsert 1 1 1) / 1))) ∧
    (0 < 1 → accDelete 1 0 1 1 =
      min 1 (Real.exp (-((0 + dGDelete 1 1 1) / 1)))) ∧
    0 ≤ accInsert 1 0 1 1 ∧ accInsert 1 0 1 1 ≤ 1 ∧
    0 ≤ accDelete 1 0 1 1 ∧ accDelete 1 0 1 1 ≤ 1 :=
  acceptance_probability_bounds 1 0 1 1 (by norm_num) (by norm_num)

/-- C3 counterexample: at N = 0, work W = log 2, zV = 2 and kT = 1, the
insertion acceptance probability from state N times the grand-canonical
weight of N differs from the deletion acceptance probability from state N+1
times the weight of N+1 — both when the deletion is taken at the same work
W and when it is taken at the reverse work -W.  The claimed equality
therefore fails for nonzero switching work. -/
theorem detailed_balance_naive_counterexample :
    accInsert 0 (Real.log 2) 2 1 * gcWeight 2 0 ≠
      accDelete 1 (Real.log 2) 2 1 * gcWeight 2 1 ∧
    accInsert 0 (Real.log 2) 2 1 * gcWeight 2 0 ≠
      accDelete 1 (-Real.log 2) 2 1 * gcWeight 2 1 := by
  have h2 : Real.exp (Real.log 2) = 2 := Real.exp_log (by norm_num)
  have ha1 : accInsert 0 (Real.log 2) 2 1 = 1 := by
    rw [accInsert]
    push_cast
    rw [div_one, Real.exp_neg, h2]
    norm_num
  have ha2 : accDelete 1 (Real.log 2) 2 1 = 1/4 := by
    rw [accDelete]
    push_cast
    rw [div_one, Real.exp_neg, h2]
    rw [min_eq_right (by norm_num : (2:ℝ)⁻¹ * (1/2) ≤ 1)]
    norm_num
  have ha3 : accDelete 1 (-Real.log 2) 2 1 = 1 := by
    rw [accDelete]
    push_cast
    rw [div_one, neg_neg, h2]
    norm_num
  have hw0 : gcWeight 2 0 = 1 := by
    rw [gcWeight]
    norm_num [Nat.factorial]
  have hw1 : gcWeight 2 1 = 2 := by
    rw [gcWeight]
    norm_num [Nat.factorial]
  constructor
  · rw [ha1, ha2, hw0, hw1]
    norm_num
  · rw [ha1, ha3, hw0, hw1]
    norm_num

/-- C3 amended: the insertion and deletion rules are paired in the
generalized (Crooks-type) sense required for a nonequilibrium protocol: for
every N, work W and positive ensemble parameters, the insertion acceptance
probability from state N at work W times the equilibrium weight of N equals
the deletion acceptance probability from state N+1 at the reverse work -W
times the equilibrium weight of N+1 times the Boltzmann factor
`exp (-W/kT)` of the switching work; at W = 0 this reduces to the textbook
detailed-balance equality. -/
theorem detailed_balance_crooks (N : ℕ) (W zV kT : ℝ)
    (hzV : 0 < zV) (hkT : 0 < kT) :
    accInsert N W zV kT * gcWeight zV N =
      accDelete (N + 1) (-W) zV kT * gcWeight zV (N + 1) *
        Real.exp (-(W / kT)) := by
  have hy : (0:ℝ) < Real.exp (-(W / kT)) := Real.exp_pos _
  have hN1 : (0:ℝ) < (N:ℝ) + 1 := by positivity
  have hfact : (0:ℝ) < (N.factorial : ℝ) := by
    exact_mod_cast N.factorial_pos
  have hrev : Real.exp (-(-W / kT)) = (Real.exp (-(W / kT)))⁻¹ := by
    rw [← Real.exp_neg]
    ring_nf
  have hfs : (((N+1).factorial : ℕ) : ℝ) = ((N:ℝ) + 1) * (N.factorial : ℝ) := by
    rw [Nat.factorial_succ]
    push_cast
    ring
  rw [accInsert, accDelete, hrev]
  push_cast
  rw [metropolis_flip _ _ (by positivity)]
  rw [mul_inv, inv_div]
  rw [show Real.exp (-(W / kT)) * (zV / ((N:ℝ) + 1)) * gcWeight zV N
      = gcWeight zV (N + 1) * Real.exp (-(W / kT)) by
    rw [gcWeight, gcWeight, hfs, pow_succ]
    field_simp
    ring]
  ring

/-- Witness for the amended C3 at N = 0, W = 0, zV = 1, kT = 1. -/
theorem detailed_balance_crooks_witness :
    accInsert 0 0 1 1 * gcWeight 1 0 =
      accDelete (0 + 1) (-0) 1 1 * gcWeight 1 (0 + 1) *
        Real.exp (-(0 / 1)) :=
  detailed_balance_crooks 0 0 1 1 (by norm_num) (by norm_num)

end Grand
